import Mathlib

/-!
Verification of `src/utils/text_highlighting.py`, `src/mcp_client.py` and
`src/app.py` of the course_tool repository, via a shallow embedding of the
Python code into Lean.  Strings are modelled as `String`/`List Char`; the
compiled behaviour of the regular expression `(\bw1\b|\bw2\b|...)` built by
the highlighting functions (all alternatives are `re.escape`d literals) is
modelled as a left-to-right, first-alternative, non-overlapping literal
scanner with word-boundary checks.  Character classes are modelled at ASCII
level (`\w` is `[a-zA-Z0-9_]`, `str.lower` lowers ASCII letters), which is
exact for ASCII text.
-/

namespace CourseTool

/-- Python truthiness of a string: falsy iff it has no characters
(models `if not s:`). -/
def strEmpty (s : String) : Bool :=
  s.toList.isEmpty

/-- The whitespace characters of Python `str.split()` (ASCII):
space, tab, newline, carriage return, vertical tab, form feed. -/
def pyIsSpace (c : Char) : Bool :=
  c = ' ' || c = '\t' || c = '\n' || c = '\r' || c = Char.ofNat 11 || c = Char.ofNat 12

/-- Python `string.punctuation`.  The apostrophe, backtick and braces are
written via their code points. -/
def pyPunct : List Char :=
  ['!', '\"', '#', '$', '%', '&', Char.ofNat 39, '(', ')', '*', '+', ',',
   '-', '.', '/', ':', ';', '<', '=', '>', '?', '@', '[', '\\', ']', '^',
   '_', Char.ofNat 96, Char.ofNat 123, '|', Char.ofNat 125, '~']

/-- Accumulator pass of Python `str.split()`: maximal runs of
non-whitespace characters, empty tokens never produced. -/
def splitWsAux : List Char → List Char → List (List Char)
  | [], acc => if acc.isEmpty then [] else [acc.reverse]
  | c :: rest, acc =>
    if pyIsSpace c then
      if acc.isEmpty then splitWsAux rest [] else acc.reverse :: splitWsAux rest []
    else splitWsAux rest (c :: acc)

/-- Python `str.split()` with no argument. -/
def splitWs (cs : List Char) : List (List Char) :=
  splitWsAux cs []

/-- Python `str.strip(string.punctuation)`: drop leading and trailing
characters belonging to `string.punctuation`. -/
def stripPunct (cs : List Char) : List Char :=
  (((cs.dropWhile (fun c => pyPunct.contains c)).reverse).dropWhile
    (fun c => pyPunct.contains c)).reverse

/-- The stop-word set of `extract_query_words`
(src/utils/text_highlighting.py lines 93-95). -/
def stop_words : List (List Char) :=
  (["i", "the", "is", "are", "was", "were", "a", "an", "and", "or", "but",
    "in", "on", "at", "to", "for", "of", "with", "by", "what", "how", "why",
    "when", "where", "who", "whom", "whose", "which", "that", "this",
    "these", "those", "tell", "me", "about", "should", "we", "use"]).map
    String.toList

/-- The `for word in query.split()` loop of `extract_query_words`:
strip punctuation, lowercase, keep only non-empty results. -/
def collectWords : List (List Char) → List (List Char)
  | [] => []
  | w :: ws =>
    let clean := (stripPunct w).map Char.toLower
    if clean.isEmpty then collectWords ws else clean :: collectWords ws

/-- `extract_query_words` (src/utils/text_highlighting.py lines 59-98):
replace hyphens by spaces, split on whitespace, strip punctuation and
lowercase each token, drop empties, drop stop words. -/
def extract_query_words (query : String) : List String :=
  if strEmpty query then []
  else
    let q := query.toList.map (fun c => if c = '-' then ' ' else c)
    let words := collectWords (splitWs q)
    let filtered_words := words.filter (fun w => !(stop_words.contains w))
    filtered_words.map String.mk

/-- A word character of the regex class `\w` (ASCII): letter, digit or
underscore. -/
def isWordChar (c : Char) : Bool :=
  c.isAlphanum || c = '_'

/-- Word-character test at a possibly missing position (string edges count
as non-word). -/
def isWordOpt : Option Char → Bool
  | some c => isWordChar c
  | none => false

/-- The word boundary `\b`: holds between two (possibly missing) adjacent
characters iff exactly one side is a word character. -/
def boundaryB (p n : Option Char) : Bool :=
  isWordOpt p != isWordOpt n

/-- The character preceding the scan position after consuming `m`; if `m`
is empty the previous character is unchanged. -/
def lastOpt (m : List Char) (p : Option Char) : Option Char :=
  match m.getLast? with
  | some c => some c
  | none => p

/-- Case-insensitive literal prefix match (the `re.escape`d word under
`re.IGNORECASE`): returns the originally-cased consumed prefix and the
rest of the text. -/
def ciConsume : List Char → List Char → Option (List Char × List Char)
  | [], cs => some ([], cs)
  | _ :: _, [] => none
  | a :: asx, c :: cs =>
    if Char.toLower c = Char.toLower a then
      match ciConsume asx cs with
      | some (m, r) => some (c :: m, r)
      | none => none
    else none

/-- One alternation step of the pattern `(\bw1\b|\bw2\b|...)` at a fixed
text position: try each alternative `\bw\b` left to right; `p` is the
character just before the position. -/
def findMatch (words : List (List Char)) (p : Option Char) (cs : List Char) :
    Option (List Char × List Char) :=
  match words with
  | [] => none
  | w :: ws =>
    match ciConsume w cs with
    | some (m, r) =>
      if boundaryB p cs.head? && boundaryB (lastOpt m p) r.head? then some (m, r)
      else findMatch ws p cs
    | none => findMatch ws p cs

/-- The replacement of `replace_match`: wrap the originally-cased matched
text in a mark element carrying the highlight class. -/
def wrapMark (cls : String) (m : List Char) : List Char :=
  ("<mark class=\"" ++ cls ++ "\">").toList ++ m ++ ("</mark>").toList

/-- The scan loop of `re.sub(pattern, replace_match, text, re.IGNORECASE)`:
left to right, non-overlapping; at each position the first alternative
that matches wins, otherwise the character is copied.  `fuel` only serves
termination and never runs out when initialised with the text length.  A
zero-width match (an empty alternative, never produced by
`extract_query_words`) is substituted and the scan advances one
character, as `re.sub` does. -/
def subAux (words : List (List Char)) (cls : String) :
    Nat → Option Char → List Char → List Char
  | _, p, [] =>
    (match findMatch words p [] with
     | some (m, _) => wrapMark cls m
     | none => [])
  | 0, _, c :: rest => c :: rest
  | fuel + 1, p, c :: rest =>
    match findMatch words p (c :: rest) with
    | some (m, r) =>
      if m.isEmpty then wrapMark cls m ++ c :: subAux words cls fuel (some c) rest
      else wrapMark cls m ++ subAux words cls fuel (lastOpt m p) r
    | none => c :: subAux words cls fuel (some c) rest

/-- `re.sub` over the whole text with the alternation of the given words. -/
def re_sub_highlight (query_words : List String) (cls : String) (text : String) :
    String :=
  String.mk (subAux (query_words.map String.toList) cls text.toList.length
    none text.toList)

/-- `highlight_query_terms` (src/utils/text_highlighting.py lines 8-56).
The Python default for the third argument is `"highlight"`. -/
def highlight_query_terms (text query highlight_class : String) : String :=
  if strEmpty text || strEmpty query then text
  else
    let query_words := extract_query_words query
    if query_words.isEmpty then text
    else re_sub_highlight query_words highlight_class text

/-- `highlight_query_terms_smart` (src/utils/text_highlighting.py lines
101-143); its body is the same as `highlight_query_terms` line for line. -/
def highlight_query_terms_smart (text query highlight_class : String) : String :=
  if strEmpty text || strEmpty query then text
  else
    let query_words := extract_query_words query
    if query_words.isEmpty then text
    else re_sub_highlight query_words highlight_class text

/-- Term extraction written from the words of spec section 4.1, for the
refinement comparison with `extract_query_words`: replace every hyphen by
a space, split on whitespace, strip leading/trailing punctuation and
lowercase each token, discard tokens that become empty, discard stop
words, preserving order. -/
def spec_extractTerms (query : String) : List String :=
  let toks := splitWs (query.toList.map (fun c => if c = '-' then ' ' else c))
  let normed := toks.map (fun t => (stripPunct t).map Char.toLower)
  let nonempty := normed.filter (fun t => !t.isEmpty)
  let kept := nonempty.filter (fun t => !(stop_words.contains t))
  kept.map String.mk

/-- Modelled from the spec: the "tokenization-without-stop-word-filtering"
term computation that spec section 4.2 attributes to the plain variant
(no function of the source performs it; it is built here only to compare
the claim against the source's plain entry point). -/
def spec_plainTerms (query : String) : List String :=
  let toks := splitWs (query.toList.map (fun c => if c = '-' then ' ' else c))
  let normed := toks.map (fun t => (stripPunct t).map Char.toLower)
  ((normed.filter (fun t => !t.isEmpty)).map String.mk)

/-- Instrumented form of `subAux` returning the decomposition of the scan
into segments: `(true, m)` for a matched span `m` (wrapped in the output)
and `(false, s)` for copied text `s`.  Mirrors `subAux` branch for
branch. -/
def segsAux (words : List (List Char)) :
    Nat → Option Char → List Char → List (Bool × List Char)
  | _, p, [] =>
    (match findMatch words p [] with
     | some (m, _) => [(true, m)]
     | none => [])
  | 0, _, c :: rest => [(false, c :: rest)]
  | fuel + 1, p, c :: rest =>
    match findMatch words p (c :: rest) with
    | some (m, r) =>
      if m.isEmpty then (true, m) :: (false, [c]) :: segsAux words fuel (some c) rest
      else (true, m) :: segsAux words fuel (lastOpt m p) r
    | none => (false, [c]) :: segsAux words fuel (some c) rest

/-- Concatenation of the text of a segment list: recovers the scanned
text. -/
def segsJoin (segs : List (Bool × List Char)) : List Char :=
  segs.foldr (fun s acc => s.2 ++ acc) []

/-- Rendering of a segment list: matched segments are wrapped in the mark
element, copied segments appear verbatim. -/
def segsRender (cls : String) (segs : List (Bool × List Char)) : List Char :=
  segs.foldr (fun s acc => (if s.1 then wrapMark cls s.2 else s.2) ++ acc) []

/-- A chunk of the MCP server response (`src/mcp_client.py` docstring
lines 20-35), as parsed from the wire; the network layer itself is not
modelled, the parsed response is a parameter. -/
structure MCPChunk where
  text : String
  workshop : String
  timestamp : String
  speaker : String
  relevance : Float

/-- A chunk in the display format built by `MCPClient.get_chunks`
(src/mcp_client.py lines 95-100). -/
structure DisplayChunk where
  content : String
  source : String
  score : Float
  speaker : String

/-- The normalisation of one response chunk (src/mcp_client.py lines
95-100): `content` from `text`, `source` from workshop and timestamp,
`score` from `relevance`. -/
def normalize_chunk (c : MCPChunk) : DisplayChunk :=
  ⟨c.text, c.workshop ++ " - " ++ c.timestamp, c.relevance, c.speaker⟩

/-- `MCPClient.get_chunks` (src/mcp_client.py lines 61-111) as a function
of the parsed server response: every response chunk is normalised, in
order, with no truncation. -/
def get_chunks (chunks_data : List MCPChunk) : List DisplayChunk :=
  chunks_data.map normalize_chunk

/-- The apostrophe character, for the placeholder texts. -/
def sq : String :=
  String.mk [Char.ofNat 39]

/-- The three placeholder records of `get_chunks_with_fallback`
(src/mcp_client.py lines 137-156). -/
def placeholder_results (question : String) (top_k : Nat) (err : String) :
    List DisplayChunk :=
  [⟨"[MCP Server Unavailable] This is a placeholder result for the query: "
      ++ sq ++ question ++ sq ++ ". The MCP server could not be reached.",
    "fallback_placeholder.txt", 0.0, "System"⟩,
   ⟨"[Error Response] Unable to retrieve real chunks from the MCP server. "
      ++ "Please check server connectivity and try again.",
    "error_fallback.txt", 0.0, "System"⟩,
   ⟨"[Debug Info] Original query: " ++ sq ++ question ++ sq
      ++ ", Requested top_k: " ++ toString top_k ++ ". Error: " ++ err,
    "debug_info.txt", 0.0, "System"⟩]

/-- `MCPClient.get_chunks_with_fallback` (src/mcp_client.py lines
117-159) as a function of the outcome of the server call: on success the
normalised chunks, on failure the placeholders truncated to `top_k`
(`placeholder_results[:top_k]`). -/
def get_chunks_with_fallback (question : String) (top_k : Nat)
    (res : Except String (List MCPChunk)) : List DisplayChunk :=
  match res with
  | Except.ok chunks => get_chunks chunks
  | Except.error e => (placeholder_results question top_k e).take top_k

/-- The contents passed into highlighting by `create_results_display`
(src/app.py lines 90-95): one call of `highlight_query_terms_smart` per
result, in order, with the default class. -/
def highlighted_contents (question : String) (results : List DisplayChunk) :
    List String :=
  results.map (fun r => highlight_query_terms_smart r.content question "highlight")

/-- The extraction loop equals a map followed by the non-empty filter. -/
theorem collectWords_eq (ts : List (List Char)) :
    collectWords ts
      = (ts.map (fun t => (stripPunct t).map Char.toLower)).filter
          (fun t => !t.isEmpty) := by
  induction ts with
  | nil => rfl
  | cons w ws ih =>
    simp only [collectWords, List.map_cons, List.filter_cons]
    by_cases h : ((stripPunct w).map Char.toLower).isEmpty
    · simp [h, ih]
    · simp [h, ih]

/-- Soundness of the case-insensitive literal consumer: the match is a
prefix of the text, and it equals the word up to lowercasing. -/
theorem ciConsume_sound (w : List Char) :
    ∀ cs m r, ciConsume w cs = some (m, r) →
      cs = m ++ r ∧ m.map Char.toLower = w.map Char.toLower := by
  induction w with
  | nil =>
    intro cs m r h
    simp only [ciConsume, Option.some.injEq, Prod.mk.injEq] at h
    obtain ⟨h1, h2⟩ := h
    subst h1; subst h2; simp
  | cons a asx ih =>
    intro cs m r h
    cases cs with
    | nil => simp [ciConsume] at h
    | cons c cs2 =>
      simp only [ciConsume] at h
      by_cases hc : Char.toLower c = Char.toLower a
      · rw [if_pos hc] at h
        cases heq : ciConsume asx cs2 with
        | none => rw [heq] at h; simp at h
        | some pr =>
          obtain ⟨m2, r2⟩ := pr
          rw [heq] at h
          simp only [Option.some.injEq, Prod.mk.injEq] at h
          obtain ⟨h1, h2⟩ := h
          obtain ⟨hcs, hmap⟩ := ih cs2 m2 r2 heq
          subst h1; subst h2
          constructor
          · rw [hcs]; simp
          · simp [hmap, hc]
      · rw [if_neg hc] at h; simp at h

/-- Soundness of the alternation step: a found match splits the text and
equals, up to lowercasing, one of the alternation's words. -/
theorem findMatch_sound (words : List (List Char)) (p : Option Char) :
    ∀ cs m r, findMatch words p cs = some (m, r) →
      cs = m ++ r ∧ ∃ w, w ∈ words ∧ m.map Char.toLower = w.map Char.toLower := by
  induction words with
  | nil => intro cs m r h; simp [findMatch] at h
  | cons w ws ih =>
    intro cs m r h
    simp only [findMatch] at h
    cases heq : ciConsume w cs with
    | none =>
      rw [heq] at h
      dsimp only at h
      obtain ⟨h1, w2, hw2, h3⟩ := ih cs m r h
      exact ⟨h1, w2, List.mem_cons_of_mem _ hw2, h3⟩
    | some pr =>
      obtain ⟨m2, r2⟩ := pr
      rw [heq] at h
      dsimp only at h
      by_cases hb :
          (boundaryB p cs.head? && boundaryB (lastOpt m2 p) r2.head?) = true
      · rw [if_pos hb] at h
        simp only [Option.some.injEq, Prod.mk.injEq] at h
        obtain ⟨rfl, rfl⟩ := h
        obtain ⟨hcs, hmap⟩ := ciConsume_sound w cs m2 r2 heq
        exact ⟨hcs, w, List.mem_cons_self w ws, hmap⟩
      · rw [if_neg hb] at h
        obtain ⟨h1, w2, hw2, h3⟩ := ih cs m r h
        exact ⟨h1, w2, List.mem_cons_of_mem _ hw2, h3⟩

/-- A found match satisfies the word boundary on both sides. -/
theorem findMatch_bounds (words : List (List Char)) (p : Option Char) :
    ∀ cs m r, findMatch words p cs = some (m, r) →
      boundaryB p cs.head? = true ∧ boundaryB (lastOpt m p) r.head? = true := by
  induction words with
  | nil => intro cs m r h; simp [findMatch] at h
  | cons w ws ih =>
    intro cs m r h
    simp only [findMatch] at h
    cases heq : ciConsume w cs with
    | none => rw [heq] at h; dsimp only at h; exact ih cs m r h
    | some pr =>
      obtain ⟨m2, r2⟩ := pr
      rw [heq] at h
      dsimp only at h
      by_cases hb :
          (boundaryB p cs.head? && boundaryB (lastOpt m2 p) r2.head?) = true
      · rw [if_pos hb] at h
        simp only [Option.some.injEq, Prod.mk.injEq] at h
        obtain ⟨h1, h2⟩ := h
        subst h1; subst h2
        exact ⟨(Bool.and_eq_true _ _).mp hb |>.1, (Bool.and_eq_true _ _).mp hb |>.2⟩
      · rw [if_neg hb] at h; exact ih cs m r h

/-- At the end of the text only an empty alternative can match. -/
theorem findMatch_nil (words : List (List Char)) (p : Option Char)
    (m r : List Char) (h : findMatch words p [] = some (m, r)) :
    m = [] ∧ r = [] := by
  obtain ⟨h1, _⟩ := findMatch_sound words p [] m r h
  constructor
  · cases m with
    | nil => rfl
    | cons a asx => simp at h1
  · cases r with
    | nil => rfl
    | cons a asx => cases m <;> simp at h1

/-- The segments of the instrumented scan concatenate back to the scanned
text. -/
theorem segsAux_join (words : List (List Char)) :
    ∀ fuel p cs, segsJoin (segsAux words fuel p cs) = cs := by
  intro fuel
  induction fuel with
  | zero =>
    intro p cs
    cases cs with
    | nil =>
      simp only [segsAux]
      cases heq : findMatch words p [] with
      | none => rfl
      | some pr =>
        obtain ⟨m, r⟩ := pr
        obtain ⟨hm, _⟩ := findMatch_nil words p m r heq
        subst hm; rfl
    | cons c rest => simp [segsAux, segsJoin]
  | succ fuel ih =>
    intro p cs
    cases cs with
    | nil =>
      simp only [segsAux]
      cases heq : findMatch words p [] with
      | none => rfl
      | some pr =>
        obtain ⟨m, r⟩ := pr
        obtain ⟨hm, _⟩ := findMatch_nil words p m r heq
        subst hm; rfl
    | cons c rest =>
      simp only [segsAux]
      cases heq : findMatch words p (c :: rest) with
      | none =>
        dsimp only
        simp only [segsJoin, List.foldr_cons] at ih ⊢
        rw [ih (some c) rest]
        rfl
      | some pr =>
        obtain ⟨m, r⟩ := pr
        dsimp only
        obtain ⟨hcs, _⟩ := findMatch_sound words p (c :: rest) m r heq
        by_cases hm : m.isEmpty
        · rw [if_pos hm]
          have hm2 : m = [] := by
            cases m with
            | nil => rfl
            | cons a asx => simp at hm
          subst hm2
          simp only [segsJoin, List.foldr_cons, List.nil_append,
            List.singleton_append] at ih ⊢
          rw [ih (some c) rest]
        · rw [if_neg hm]
          simp only [segsJoin, List.foldr_cons] at ih ⊢
          rw [ih (lastOpt m p) r, hcs]

/-- Rendering the instrumented scan's segments gives exactly the output
of the scan. -/
theorem segsAux_render (words : List (List Char)) (cls : String) :
    ∀ fuel p cs, segsRender cls (segsAux words fuel p cs) = subAux words cls fuel p cs := by
  intro fuel
  induction fuel with
  | zero =>
    intro p cs
    cases cs with
    | nil =>
      simp only [segsAux, subAux]
      cases heq : findMatch words p [] with
      | none => rfl
      | some pr => obtain ⟨m, r⟩ := pr; dsimp only; simp [segsRender]
    | cons c rest => simp [segsAux, subAux, segsRender]
  | succ fuel ih =>
    intro p cs
    cases cs with
    | nil =>
      simp only [segsAux, subAux]
      cases heq : findMatch words p [] with
      | none => rfl
      | some pr => obtain ⟨m, r⟩ := pr; dsimp only; simp [segsRender]
    | cons c rest =>
      simp only [segsAux, subAux]
      cases heq : findMatch words p (c :: rest) with
      | none =>
        dsimp only
        simp only [segsRender, List.foldr_cons] at ih ⊢
        rw [ih (some c) rest]
        rfl
      | some pr =>
        obtain ⟨m, r⟩ := pr
        dsimp only
        by_cases hm : m.isEmpty
        · rw [if_pos hm, if_pos hm]
          simp only [segsRender, List.foldr_cons] at ih ⊢
          rw [ih (some c) rest]
          simp
        · rw [if_neg hm, if_neg hm]
          simp only [segsRender, List.foldr_cons] at ih ⊢
          rw [ih (lastOpt m p) r]
          simp

/-- C1: for every query string, `extract_query_words` returns the sequence
obtained by replacing every hyphen with a space, splitting on whitespace,
stripping leading/trailing punctuation from each token and lowercasing it,
discarding tokens that become empty and tokens in the fixed stop-word set,
preserving first-occurrence order (the pipeline `spec_extractTerms` written
from the spec's words); in particular the query "What is an agent?" yields
["agent"] and "fine-tuning" yields ["fine", "tuning"]. -/
theorem C1_extract_terms :
    (∀ q : String, extract_query_words q = spec_extractTerms q) ∧
    extract_query_words "What is an agent?" = ["agent"] ∧
    extract_query_words "fine-tuning" = ["fine", "tuning"] := by
  refine ⟨fun q => ?_, by decide, by decide⟩
  unfold extract_query_words spec_extractTerms
  by_cases h : strEmpty q = true
  · rw [if_pos h]
    have hq : q.toList = [] := by
      have h2 := h
      unfold strEmpty at h2
      rwa [List.isEmpty_iff] at h2
    rw [hq]
    rfl
  · rw [if_neg h]
    simp only [collectWords_eq]

/-- C4: for every text T and every query Q with no extractable terms,
highlighting is the identity on T; in particular the empty query is a
no-op on every text and every query is a no-op on the empty text, for
both entry points. -/
theorem C4_no_terms_noop :
    (∀ T Q cls : String, extract_query_words Q = [] →
       highlight_query_terms T Q cls = T ∧
       highlight_query_terms_smart T Q cls = T) ∧
    (∀ T cls : String, highlight_query_terms T "" cls = T ∧
       highlight_query_terms_smart T "" cls = T) ∧
    (∀ Q cls : String, highlight_query_terms "" Q cls = "" ∧
       highlight_query_terms_smart "" Q cls = "") := by
  have hemp : strEmpty "" = true := rfl
  refine ⟨fun T Q cls h => ?_, fun T cls => ?_, fun Q cls => ?_⟩
  · constructor
    · simp [highlight_query_terms, h]
    · simp [highlight_query_terms_smart, h]
  · constructor
    · simp [highlight_query_terms, hemp]
    · simp [highlight_query_terms_smart, hemp]
  · constructor
    · simp [highlight_query_terms, hemp]
    · simp [highlight_query_terms_smart, hemp]

/-- Witness for C4 at a concrete stop-word-only query. -/
theorem C4_no_terms_noop_witness :
    highlight_query_terms "hello world" "the is" "highlight" = "hello world" ∧
    highlight_query_terms_smart "hello world" "the is" "highlight"
      = "hello world" :=
  C4_no_terms_noop.1 "hello world" "the is" "highlight" (by decide)

/-- C5: queries made of pattern metacharacters never raise (all functions
are total and degrade to the identity when no term survives extraction),
and a term containing a metacharacter such as the dot matches only its
literal occurrences: "a.b" does not match "axb". -/
theorem C5_metachar_safety :
    (∀ t cls : String, highlight_query_terms t ".*" cls = t) ∧
    (∀ t cls : String, highlight_query_terms_smart t "(" cls = t) ∧
    extract_query_words "a.b" = ["a.b"] ∧
    highlight_query_terms "axb and a.b" "a.b" "highlight"
      = "axb and <mark class=\"highlight\">a.b</mark>" := by
  refine ⟨fun t cls => ?_, fun t cls => ?_, by decide, by decide⟩
  · have h : extract_query_words ".*" = [] := by decide
    simp [highlight_query_terms, h]
  · have h : extract_query_words "(" = [] := by decide
    simp [highlight_query_terms_smart, h]

/-- C10: the plain and smart entry points are extensionally equal: their
Python bodies are identical line for line, so the embedded functions
coincide on every input. -/
theorem C10_plain_eq_smart :
    ∀ t q cls : String,
      highlight_query_terms t q cls = highlight_query_terms_smart t q cls :=
  fun _ _ _ => rfl

/-- C2: highlighting matches terms only as whole words: every match found
by the scan satisfies the word boundary (a transition between word and
non-word characters, string edges counting as non-word) on both sides;
consequently a term never matches inside a longer word, e.g. "agent" does
not match inside "agents" and "task" does not match inside "tasks". -/
theorem C2_whole_word :
    (∀ (words : List (List Char)) (p : Option Char) (cs m r : List Char),
       findMatch words p cs = some (m, r) →
       boundaryB p cs.head? = true ∧ boundaryB (lastOpt m p) r.head? = true) ∧
    highlight_query_terms "agents do tasks" "agent task" "highlight"
      = "agents do tasks" ∧
    highlight_query_terms_smart "tasks agent" "task agent" "highlight"
      = "tasks <mark class=\"highlight\">agent</mark>" :=
  ⟨fun words p cs m r h => findMatch_bounds words p cs m r h, by decide, by decide⟩

/-- Witness for C2 at a concrete successful match. -/
theorem C2_whole_word_witness :
    boundaryB none (List.head? ['a']) = true ∧
    boundaryB (lastOpt ['a'] none) (List.head? ([] : List Char)) = true :=
  C2_whole_word.1 [['a']] none ['a'] ['a'] [] (by decide)

/-- C3: the scan is case-insensitive, left to right and non-overlapping,
and wraps the originally-cased matched substring: every match found by
the scan is a literal prefix of the remaining text (so the original casing
is what gets wrapped) and coincides with one of the query terms up to
lowercasing; in particular text "Agent" with term "agent" yields the
original spelling "Agent" inside the mark element, and two occurrences
are wrapped left to right without overlap. -/
theorem C3_case_preserved :
    (∀ (words : List (List Char)) (p : Option Char) (cs m r : List Char),
       findMatch words p cs = some (m, r) →
       cs = m ++ r ∧
       ∃ w, w ∈ words ∧ m.map Char.toLower = w.map Char.toLower) ∧
    highlight_query_terms_smart "Agent" "agent" "highlight"
      = "<mark class=\"highlight\">Agent</mark>" ∧
    highlight_query_terms_smart "Agent AGENT" "agent" "highlight"
      = "<mark class=\"highlight\">Agent</mark> <mark class=\"highlight\">AGENT</mark>" :=
  ⟨fun words p cs m r h => findMatch_sound words p cs m r h, by decide, by decide⟩

/-- Witness for C3 at a concrete case-insensitive match. -/
theorem C3_case_preserved_witness :
    (['A'] : List Char) = ['A'] ++ [] ∧
    ∃ w, w ∈ [['a']] ∧ (['A'] : List Char).map Char.toLower = w.map Char.toLower :=
  C3_case_preserved.1 [['a']] none ['A'] ['A'] [] (by decide)

/-- C6: the returned value is the original text with zero or more
non-overlapping substitutions: the output decomposes into segments whose
unmarked parts concatenate, in order, exactly to the input text, so every
character outside a matched span is preserved unchanged and in order. -/
theorem C6_frame :
    ∀ text query cls : String, ∃ segs : List (Bool × List Char),
      segsJoin segs = text.toList ∧
      (highlight_query_terms text query cls).toList = segsRender cls segs := by
  intro text query cls
  unfold highlight_query_terms
  by_cases h1 : (strEmpty text || strEmpty query) = true
  · rw [if_pos h1]
    exact ⟨[(false, text.toList)], by simp [segsJoin], by simp [segsRender]⟩
  · rw [if_neg h1]
    by_cases h2 : (extract_query_words query).isEmpty
    · simp only [h2]
      exact ⟨[(false, text.toList)], by simp [segsJoin], by simp [segsRender]⟩
    · simp only [h2]
      refine ⟨segsAux ((extract_query_words query).map String.toList)
        text.toList.length none text.toList, ?_, ?_⟩
      · rw [segsAux_join]
      · rw [segsAux_render]
        simp [re_sub_highlight, Bool.not_eq_true] at h2 ⊢

/-- C7 counterexample: applying highlight twice with the same query does
re-wrap text inside the mark element produced by the first application:
the second pass scans the inserted markup, the term still matches as a
whole word between the markup delimiters, and a nested mark element
appears, so the output of the double application differs from the output
of the single application. -/
theorem C7_counterexample :
    highlight_query_terms_smart
        (highlight_query_terms_smart "agent" "agent" "highlight")
        "agent" "highlight"
      = "<mark class=\"highlight\"><mark class=\"highlight\">agent</mark></mark>" ∧
    highlight_query_terms_smart "agent" "agent" "highlight"
      = "<mark class=\"highlight\">agent</mark>" ∧
    "<mark class=\"highlight\"><mark class=\"highlight\">agent</mark></mark>"
      ≠ "<mark class=\"highlight\">agent</mark>" := by
  refine ⟨by decide, by decide, by decide⟩

/-- C7 amended: a single application scans the original text once, but
re-applying highlight to its own output re-scans the inserted markup:
since the mark element's delimiters are non-word characters, the wrapped
term still matches as a whole word and is wrapped a second time,
producing nested mark elements. -/
theorem C7_double_wrap :
    highlight_query_terms_smart
        (highlight_query_terms_smart "an agent" "agent" "highlight")
        "agent" "highlight"
      = "an <mark class=\"highlight\"><mark class=\"highlight\">agent</mark></mark>" := by
  decide

/-- C8 counterexample: the plain entry point does not compute its terms
via tokenization without stop-word filtering: on query "what" the
unfiltered tokenization yields the term "what", whose alternation would
wrap the text "what", yet `highlight_query_terms` returns the text
unchanged because it filters the stop word away. -/
theorem C8_counterexample :
    spec_plainTerms "what" = ["what"] ∧
    re_sub_highlight ["what"] "highlight" "what"
      = "<mark class=\"highlight\">what</mark>" ∧
    highlight_query_terms "what" "what" "highlight" = "what" ∧
    ("<mark class=\"highlight\">what</mark>" : String) ≠ "what" := by
  refine ⟨by decide, by decide, by decide, by decide⟩

/-- C8 amended: the two entry points do not differ at all: both compute
their terms via the stop-word-filtering extraction of 4.1, and whenever
that extraction is non-trivial both reduce to the same scan over the
extracted terms. -/
theorem C8_both_filtered :
    ∀ t q cls : String, strEmpty t = false → strEmpty q = false →
      extract_query_words q ≠ [] →
      highlight_query_terms t q cls
          = re_sub_highlight (extract_query_words q) cls t ∧
      highlight_query_terms_smart t q cls
          = re_sub_highlight (extract_query_words q) cls t := by
  intro t q cls ht hq hx
  have hxe : (extract_query_words q).isEmpty = false := by
    cases hgen : extract_query_words q with
    | nil => exact absurd hgen hx
    | cons a l => rfl
  constructor
  · unfold highlight_query_terms
    rw [ht, hq]
    simp [hxe]
  · unfold highlight_query_terms_smart
    rw [ht, hq]
    simp [hxe]

/-- Witness for C8 amended at a concrete non-stop query. -/
theorem C8_both_filtered_witness :
    highlight_query_terms "x agent" "agent" "highlight"
        = re_sub_highlight (extract_query_words "agent") "highlight" "x agent" ∧
    highlight_query_terms_smart "x agent" "agent" "highlight"
        = re_sub_highlight (extract_query_words "agent") "highlight" "x agent" :=
  C8_both_filtered "x agent" "agent" "highlight" (by decide) (by decide) (by decide)

/-- C9: for every question and requested topK in [1,10], at most topK
chunks are passed into highlighting, in the order returned by the
retrieval client: on the success path the rendered contents are exactly
the server's chunks, normalised and highlighted in order (so their number
is bounded by topK whenever the server honours the request, which is the
`fetchChunks` contract of the spec), and on the fallback path the
placeholders are truncated to topK. -/
theorem C9_topk_limit :
    ∀ (question : String) (topK : Nat) (response : List MCPChunk) (err : String),
      1 ≤ topK → topK ≤ 10 → response.length ≤ topK →
      highlighted_contents question
          (get_chunks_with_fallback question topK (Except.ok response))
        = response.map
            (fun c => highlight_query_terms_smart c.text question "highlight") ∧
      (highlighted_contents question
          (get_chunks_with_fallback question topK (Except.ok response))).length
        ≤ topK ∧
      (highlighted_contents question
          (get_chunks_with_fallback question topK (Except.error err))).length
        ≤ topK := by
  intro question topK response err h1 h10 hlen
  refine ⟨?_, ?_, ?_⟩
  · simp only [highlighted_contents, get_chunks_with_fallback, get_chunks,
      List.map_map]
    rfl
  · simp only [highlighted_contents, get_chunks_with_fallback, get_chunks,
      List.length_map]
    exact hlen
  · simp only [highlighted_contents, get_chunks_with_fallback,
      List.length_map, List.length_take]
    exact min_le_left _ _

/-- Witness for C9 at a concrete request with topK = 2 and a one-chunk
response. -/
theorem C9_topk_limit_witness :
    highlighted_contents "q"
        (get_chunks_with_fallback "q" 2
          (Except.ok [⟨"alpha", "W", "T", "S", 0.0⟩]))
      = [(⟨"alpha", "W", "T", "S", 0.0⟩ : MCPChunk)].map
          (fun c => highlight_query_terms_smart c.text "q" "highlight") ∧
    (highlighted_contents "q"
        (get_chunks_with_fallback "q" 2
          (Except.ok [⟨"alpha", "W", "T", "S", 0.0⟩]))).length ≤ 2 ∧
    (highlighted_contents "q"
        (get_chunks_with_fallback "q" 2 (Except.error "boom"))).length ≤ 2 :=
  C9_topk_limit "q" 2 [⟨"alpha", "W", "T", "S", 0.0⟩] "boom"
    (by decide) (by decide) (by simp)

end CourseTool
